import Mathlib

/-
Verification development for the hypatia calculator language
(numbers, unit algebra, prefix trie, resolver, evaluator).

Shallow embedding of the Rust sources under src/core/src:
  number.rs   -> Hypatia.Number and its parsing/arithmetic functions
  units.rs    -> Hypatia.BaseUnit, Hypatia.Unit, Hypatia.Quantity
  trie.rs     -> Hypatia.TNode (generic trie keyed by lists)
  resolve.rs  -> Hypatia.SynExpr, Hypatia.resolveHelper
  eval.rs     -> Hypatia.Expr, Hypatia.St, Hypatia.eval

Modelling conventions:
  * BigRational is Lean's Rat.  An f64 is modelled by the rational value it
    holds; float rounding is not modelled, and no theorem below depends on
    the value stored inside an Approx, only on which variant is produced
    and on exact-rational arithmetic.
  * A Rust panic (abort) is modelled as a distinguished outcome: Option
    with none, or the RustRes.panicked / EvalOut.panicked constructor.
  * HashMap / HashSet are modelled as association lists with
    replace-or-append insertion; BTreeMap as a key-sorted association
    list (list equality then coincides with map equality).
  * Arc-shared mutable state of the evaluator (the scope chain) is
    modelled by a heap: a list of scope frames addressed by index, with
    an environment being the index of its head frame.
-/

set_option maxHeartbeats 1000000
set_option linter.unusedSectionVars false

namespace Hypatia

/-! ## number.rs -/

/-- The Number enum of number.rs: Exact(BigRational) | Approx(f64).
The f64 payload is modelled by its rational value (see the header note). -/
inductive Number where
  | Exact : ℚ → Number
  | Approx : ℚ → Number
deriving DecidableEq

namespace Number

/-- Number::new(integer): Exact(integer/1). -/
def new (i : ℤ) : Number := .Exact i

/-- Number::one(). -/
def one : Number := new 1

/-- Number::into_approx: Exact(n) becomes Approx via the f64 projection
(projection modelled as the identity on the rational value). -/
def intoApprox : Number → Number
  | .Exact n => .Approx n
  | n => n

/-- Which variant a Number is in (true for Exact). -/
def isExact : Number → Bool
  | .Exact _ => true
  | .Approx _ => false

/-- ops::Add for Number.  The two mixed arms are the source's
`a.into_approx() + b.into_approx()` fallback, expanded. -/
def add : Number → Number → Number
  | .Exact a, .Exact b => .Exact (a + b)
  | .Approx a, .Approx b => .Approx (a + b)
  | .Exact a, .Approx b => .Approx (a + b)
  | .Approx a, .Exact b => .Approx (a + b)

/-- ops::Sub for Number (mixed arms expanded as in add). -/
def sub : Number → Number → Number
  | .Exact a, .Exact b => .Exact (a - b)
  | .Approx a, .Approx b => .Approx (a - b)
  | .Exact a, .Approx b => .Approx (a - b)
  | .Approx a, .Exact b => .Approx (a - b)

/-- ops::Neg for Number. -/
def neg : Number → Number
  | .Exact a => .Exact (-a)
  | .Approx a => .Approx (-a)

/-- ops::Mul for Number (mixed arms expanded as in add). -/
def mul : Number → Number → Number
  | .Exact a, .Exact b => .Exact (a * b)
  | .Approx a, .Approx b => .Approx (a * b)
  | .Exact a, .Approx b => .Approx (a * b)
  | .Approx a, .Exact b => .Approx (a * b)

/-- ops::Div for Number.  Exact division by an exact zero is rejected by
the rational library (a panic): modelled as none.  Approximate division is
IEEE and total; its value is junk-modelled by rational division. -/
def div : Number → Number → Option Number
  | .Exact a, .Exact b => if b = 0 then none else some (.Exact (a / b))
  | .Approx a, .Approx b => some (.Approx (a / b))
  | .Exact a, .Approx b => some (.Approx (a / b))
  | .Approx a, .Exact b => some (.Approx (a / b))

/-- One decimal digit of a string, as BigInt::from_str reads it. -/
def digitVal? (c : Char) : Option ℕ :=
  if '0' ≤ c ∧ c ≤ '9' then some (c.toNat - 48) else none

/-- BigInt::from_str on a string of decimal digits: fails (none) on the
empty string or on a non-digit character. -/
def digitsVal? (l : List Char) : Option ℕ :=
  match l with
  | [] => none
  | _ => l.foldl (fun acc c => do pure (10 * (← acc) + (← digitVal? c))) (some 0)

/-- str::split_once(sep): the parts around the first occurrence, if any. -/
def splitOnce : List Char → Char → Option (List Char × List Char)
  | [], _ => none
  | c :: cs, sep =>
    if c = sep then some ([], cs)
    else (splitOnce cs sep).map (fun p => (c :: p.1, p.2))

/-- i64::MAX, the bound of the `s.parse::<i64>()` call in from_decimal_str. -/
def i64Max : ℕ := 9223372036854775807

/-- Number::from_decimal_str.  With a dot: Exact(concat(int,dec) /
10^len(dec)) through BigInt (arbitrary precision).  Without a dot the
source parses through i64 and unwraps with expect: beyond i64::MAX the
parse fails and the program aborts (none). -/
def fromDecimalStr (s : List Char) : Option Number :=
  match splitOnce s '.' with
  | some (intPart, decPart) =>
    (digitsVal? (intPart ++ decPart)).map
      (fun n => .Exact ((n : ℚ) / (10 : ℚ) ^ decPart.length))
  | none =>
    match digitsVal? s with
    | some n => if n ≤ i64Max then some (.Exact (n : ℚ)) else none
    | none => none

/-- One digit in a given radix, as from_str_radix reads it. -/
def radixDigitVal? (radix : ℕ) (c : Char) : Option ℕ :=
  let d :=
    if '0' ≤ c ∧ c ≤ '9' then some (c.toNat - 48)
    else if 'a' ≤ c ∧ c ≤ 'z' then some (c.toNat - 97 + 10)
    else if 'A' ≤ c ∧ c ≤ 'Z' then some (c.toNat - 65 + 10)
    else none
  match d with
  | some v => if v < radix then some v else none
  | none => none

/-- Number::from_radix_str through BigInt::from_str_radix (none = the
source's expect panic on an unparsable string). -/
def fromRadixStr (s : List Char) (radix : ℕ) : Option Number :=
  match s with
  | [] => none
  | _ =>
    (s.foldl (fun acc c => do pure (radix * (← acc) + (← radixDigitVal? radix c)))
      (some 0)).map (fun n => .Exact (n : ℚ))

/-- Number::from_binary_str. -/
def fromBinaryStr (s : List Char) : Option Number := fromRadixStr s 2

/-- Number::from_hex_str. -/
def fromHexStr (s : List Char) : Option Number := fromRadixStr s 16

/-- u32::MAX, the bound of the exponent parse in from_scientific_str. -/
def u32Max : ℕ := 4294967295

/-- Number::from_scientific_str: mantissa parsed as decimal, then
multiplied by Exact(10^exp) or by Exact(1/10^exp) per the sign; the
exponent is parsed through u32 and unwrapped (overflow aborts). -/
def fromScientificStr (dec exp : List Char) (neg : Bool) : Option Number :=
  match fromDecimalStr dec with
  | none => none
  | some d =>
    match digitsVal? exp with
    | none => none
    | some e =>
      if e ≤ u32Max then
        some (d.mul (if neg then .Exact (1 / (10 : ℚ) ^ e) else .Exact ((10 : ℚ) ^ e)))
      else none

end Number

/-! ## units.rs -/

/-- BaseUnit(long_name, optional short_name). -/
structure BaseUnit where
  long : String
  short : Option String
deriving DecidableEq

/-- The BTreeMap<BaseUnit, Ratio<i32>> of a Unit, modelled as a key-sorted
association list (list equality = map equality for sorted, duplicate-free
lists, which all maps built by the source are). -/
abbrev Powers := List (BaseUnit × ℚ)

/-- Unit(scale, powers). -/
structure Unit where
  scale : Number
  powers : Powers
deriving DecidableEq

/-- Unit::unitless() = (1, {}). -/
def Unit.unitless : Unit := ⟨Number.one, []⟩

/-- Unit::rescaled(scale): (self.scale * scale, powers). -/
def Unit.rescaled (u : Unit) (k : Number) : Unit := ⟨u.scale.mul k, u.powers⟩

/-- Quantity { number, unit }. -/
structure Quantity where
  number : Number
  unit : Unit
deriving DecidableEq

/-- The evaluator/resolver error enum of error.rs (the Parsing variant,
never produced by the embedded fragment, is omitted; Redeclaration is the
resolver's error listed in the spec's error table). -/
inductive Error where
  | ErrorNode
  | UnknownName (s : String)
  | UpdateNonExistentVar (s : String)
  | InvalidType
  | InvalidUnitOperation
  | OccupiedName (s : String)
  | Redeclaration (s : String)
deriving DecidableEq

/-- Outcome of a Rust Result-returning computation that can also abort:
ok, err, or a panic. -/
inductive RustRes (α : Type) where
  | ok (a : α)
  | err (e : Error)
  | panicked
deriving DecidableEq

/-- Lexicographic comparison of char lists by code point (= Rust's byte
comparison of the UTF-8 encodings, which agrees with code-point order). -/
def cmpChars : List Char → List Char → Ordering
  | [], [] => .eq
  | [], _ :: _ => .lt
  | _ :: _, [] => .gt
  | a :: as, b :: bs =>
    if a.toNat < b.toNat then .lt
    else if b.toNat < a.toNat then .gt
    else cmpChars as bs

/-- Rust String Ord. -/
def cmpStr (a b : String) : Ordering := cmpChars a.toList b.toList

/-- Rust Option<String> Ord: None < Some. -/
def cmpOptStr : Option String → Option String → Ordering
  | none, none => .eq
  | none, some _ => .lt
  | some _, none => .gt
  | some a, some b => cmpStr a b

/-- The derived Ord of BaseUnit: long name, then short name. -/
def BaseUnit.cmp (a b : BaseUnit) : Ordering :=
  match cmpStr a.long b.long with
  | .eq => cmpOptStr a.short b.short
  | o => o

/-- The powers map produced by Unit Mul/Div: for every base appearing in
either map, combine the exponents (absent = 0) with f; entries with a zero
result are kept, exactly as the source's collect() keeps them.  A sorted
merge reproduces the BTreeMap that chaining both key sets collects into. -/
def mergeWith (f : ℚ → ℚ → ℚ) : Powers → Powers → Powers
  | [], ys => ys.map (fun e => (e.1, f 0 e.2))
  | xs, [] => xs.map (fun e => (e.1, f e.2 0))
  | (b1, e1) :: xs, (b2, e2) :: ys =>
    match BaseUnit.cmp b1 b2 with
    | .lt => (b1, f e1 0) :: mergeWith f xs ((b2, e2) :: ys)
    | .gt => (b2, f 0 e2) :: mergeWith f ((b1, e1) :: xs) ys
    | .eq => (b1, f e1 e2) :: mergeWith f xs ys
termination_by xs ys => xs.length + ys.length

/-- ops::Mul for Unit: multiply scales, add exponents per base. -/
def Unit.mul (u v : Unit) : Unit :=
  ⟨u.scale.mul v.scale, mergeWith (· + ·) u.powers v.powers⟩

/-- ops::Div for Unit: divide scales, subtract exponents per base (none =
the scale division panicked). -/
def Unit.div (u v : Unit) : Option Unit :=
  (u.scale.div v.scale).map (fun s => ⟨s, mergeWith (· - ·) u.powers v.powers⟩)

/-- ops::Add for Quantity (units.rs lines 42-66): error when the powers
maps differ (BTreeMap equality), else normalise the rhs magnitude to the
lhs scale and keep the lhs unit. -/
def Quantity.add (a b : Quantity) : RustRes Quantity :=
  if a.unit.powers ≠ b.unit.powers then .err .InvalidUnitOperation
  else
    match (b.number.mul b.unit.scale).div a.unit.scale with
    | none => .panicked
    | some t => .ok ⟨a.number.add t, a.unit⟩

/-- ops::Sub for Quantity, analogous to add. -/
def Quantity.sub (a b : Quantity) : RustRes Quantity :=
  if a.unit.powers ≠ b.unit.powers then .err .InvalidUnitOperation
  else
    match (b.number.mul b.unit.scale).div a.unit.scale with
    | none => .panicked
    | some t => .ok ⟨a.number.sub t, a.unit⟩

/-- ops::Mul for Quantity. -/
def Quantity.mul (a b : Quantity) : Quantity :=
  ⟨a.number.mul b.number, a.unit.mul b.unit⟩

/-- ops::Div for Quantity (panicked when either division aborts). -/
def Quantity.div (a b : Quantity) : RustRes Quantity :=
  match a.number.div b.number, a.unit.div b.unit with
  | some n, some u => .ok ⟨n, u⟩
  | _, _ => .panicked

/-- ops::Neg for Quantity. -/
def Quantity.neg (q : Quantity) : Quantity := ⟨q.number.neg, q.unit⟩

/-- Quantity::normalize. -/
def Quantity.normalize (q : Quantity) : Quantity :=
  ⟨q.number.mul q.unit.scale, ⟨Number.one, q.unit.powers⟩⟩

/-- Quantity::try_convert (units.rs lines 30-39): ok none when the powers
maps differ, else rescale onto the target unit (panicked when the scale
division aborts). -/
def Quantity.tryConvert (q : Quantity) (target : Unit) : RustRes (Option Quantity) :=
  if q.unit.powers ≠ target.powers then .ok none
  else
    match (q.number.mul q.unit.scale).div target.scale with
    | none => .panicked
    | some n => .ok (some ⟨n, target⟩)

/-- Spec-side predicate, from the claim's words (not from the source):
two powers maps agree as multisets of their nonzero-exponent entries. -/
def specNonzeroMultisetEq (p q : Powers) : Prop :=
  (↑(p.filter (fun e => decide (e.2 ≠ 0))) : Multiset (BaseUnit × ℚ)) =
    ↑(q.filter (fun e => decide (e.2 ≠ 0)))

/-! ## trie.rs

The generic Trie<K, V> of trie.rs.  A node stores the path that leads to
it, an optional value, and its edge map; the HashMap of edges is modelled
as an association list (iteration order deterministic, set semantics
identical).  Trie-level operations act on the root node, as in the
source. -/

/-- trie.rs Node<K, V>. -/
inductive TNode (K V : Type) where
  | mk (path : List K) (val : Option V) (edges : List (K × TNode K V))

namespace TNode

variable {K V : Type}

/-- The stored path field. -/
def path : TNode K V → List K
  | .mk p _ _ => p

/-- The stored value field. -/
def val : TNode K V → Option V
  | .mk _ v _ => v

/-- The edge map field. -/
def edges : TNode K V → List (K × TNode K V)
  | .mk _ _ es => es

/-- Node::new(), also Trie::new()'s root. -/
def empty : TNode K V := .mk [] none []

/-- HashMap::get on the edge map. -/
def lookupEdge [DecidableEq K] : List (K × TNode K V) → K → Option (TNode K V)
  | [], _ => none
  | (k', c) :: es, k => if k' = k then some c else lookupEdge es k

/-- HashMap::insert / entry().and_modify on the edge map: replace the
entry of the key, or append a new one. -/
def updateEdge [DecidableEq K] : List (K × TNode K V) → K → TNode K V → List (K × TNode K V)
  | [], k, n => [(k, n)]
  | (k', c) :: es, k, n =>
    if k' = k then (k, n) :: es else (k', c) :: updateEdge es k n

/-- Node::insert(depth, path, val): pre is path[..depth], the rest of the
path drives the descent; a missing edge gets a fresh node whose stored
path is path[..=depth].  Returns the new node and the previous value. -/
def insertGo [DecidableEq K] : TNode K V → List K → List K → V → TNode K V × Option V
  | .mk p v es, _, [], nv => (.mk p (some nv) es, v)
  | .mk p v es, pre, h :: t, nv =>
    let child :=
      match lookupEdge es h with
      | some c => c
      | none => .mk (pre ++ [h]) none []
    let r := insertGo child (pre ++ [h]) t nv
    (.mk p v (updateEdge es h r.1), r.2)

/-- Trie::insert. -/
def insert [DecidableEq K] (t : TNode K V) (key : List K) (v : V) : TNode K V × Option V :=
  t.insertGo [] key v

/-- Node::remove(depth, path): clears the value at the end of the path;
returns early when an edge is missing.  Returns the node and old value. -/
def removeGo [DecidableEq K] : TNode K V → List K → TNode K V × Option V
  | .mk p v es, [] => (.mk p none es, v)
  | .mk p v es, h :: t =>
    match lookupEdge es h with
    | none => (.mk p v es, none)
    | some c =>
      let r := removeGo c t
      (.mk p v (updateEdge es h r.1), r.2)

/-- Trie::remove. -/
def remove [DecidableEq K] (t : TNode K V) (key : List K) : TNode K V × Option V :=
  t.removeGo key

end TNode

mutual

/-- Node::entries: this node's (stored path, value) pair, then the
children's entries in edge order. -/
def TNode.entries {K V : Type} : TNode K V → List (List K × V)
  | .mk p v es =>
    (match v with
     | some x => [(p, x)]
     | none => []) ++ entriesList es

/-- The flat_map over the edge map inside Node::entries. -/
def entriesList {K V : Type} : List (K × TNode K V) → List (List K × V)
  | [] => []
  | (_, c) :: es => c.entries ++ entriesList es

end

/-- Trie::contains_key: keys().any(|k| k == key), keys being the stored
paths of the valued nodes. -/
def TNode.containsKey {K V : Type} [DecidableEq K] (t : TNode K V) (k : List K) : Bool :=
  t.entries.any (fun e => decide (e.1 = k))

/-- Node::search(acc, arr): this node's value keyed by acc, then (while
the searched key lasts) the result of the matching child. -/
def TNode.searchGo {K V : Type} [DecidableEq K] : TNode K V → List K → List K → List (List K × V)
  | .mk _ v _, acc, [] =>
    match v with
    | some x => [(acc, x)]
    | none => []
  | .mk _ v es, acc, h :: t =>
    (match v with
     | some x => [(acc, x)]
     | none => []) ++
    (match TNode.lookupEdge es h with
     | none => []
     | some c => c.searchGo (acc ++ [h]) t)

/-- Trie::search. -/
def TNode.search {K V : Type} [DecidableEq K] (t : TNode K V) (key : List K) :
    List (List K × V) :=
  t.searchGo [] key

/-- The value assigned to a key: follow the key's edges and read the value
at the end.  This is the trie's map semantics, used as the reference by
the correctness statements below. -/
def TNode.tlookup {K V : Type} [DecidableEq K] : TNode K V → List K → Option V
  | .mk _ v _, [] => v
  | .mk _ _ es, h :: t =>
    match TNode.lookupEdge es h with
    | none => none
    | some c => c.tlookup t

mutual

/-- Node::purge: purge every child, keep the non-removable ones; the
returned flag says whether this node itself can be removed. -/
def TNode.purgeGo {K V : Type} : TNode K V → TNode K V × Bool
  | .mk p v es =>
    let es' := purgeList es
    (.mk p v es', es'.isEmpty && v.isNone)

/-- The edges.retain(|_, node| !node.purge()) loop. -/
def purgeList {K V : Type} : List (K × TNode K V) → List (K × TNode K V)
  | [] => []
  | (k, c) :: es =>
    let r := c.purgeGo
    if r.2 then purgeList es else (k, r.1) :: purgeList es

end

/-- Trie::purge: the root is purged but kept. -/
def TNode.purge {K V : Type} (t : TNode K V) : TNode K V := t.purgeGo.1

/-- Well-formedness of a reachable trie node at position pre: the stored
path is the position, edge keys are distinct (a HashMap invariant), and
every child is well-formed one key deeper. -/
inductive TWF {K V : Type} : List K → TNode K V → Prop where
  | mk (pre p : List K) (v : Option V) (es : List (K × TNode K V)) :
      p = pre →
      (es.map Prod.fst).Nodup →
      (∀ k c, (k, c) ∈ es → TWF (pre ++ [k]) c) →
      TWF pre (.mk p v es)

/-! ### The reference hash map and interleaved operation sequences -/

/-- One step of the interleaved operation sequences of the trie claims. -/
inductive TrieOp (K V : Type) where
  | ins (k : List K) (v : V)
  | rem (k : List K)
  | purge

/-- The reference map: an association list with HashMap semantics. -/
abbrev HMap (K V : Type) := List (List K × V)

/-- HashMap::insert: replace the entry (returning the old value) or
append. -/
def hmInsert {K V : Type} [DecidableEq K] : HMap K V → List K → V → HMap K V × Option V
  | [], k, v => ([(k, v)], none)
  | (k', v') :: rest, k, v =>
    if k' = k then ((k, v) :: rest, some v')
    else
      let r := hmInsert rest k v
      ((k', v') :: r.1, r.2)

/-- HashMap::remove: drop the entry, returning its value. -/
def hmRemove {K V : Type} [DecidableEq K] : HMap K V → List K → HMap K V × Option V
  | [], _ => ([], none)
  | (k', v') :: rest, k =>
    if k' = k then (rest, some v')
    else
      let r := hmRemove rest k
      ((k', v') :: r.1, r.2)

/-- HashMap::get. -/
def hmLookup {K V : Type} [DecidableEq K] : HMap K V → List K → Option V
  | [], _ => none
  | (k', v') :: rest, k => if k' = k then some v' else hmLookup rest k

/-- Run an operation sequence on a trie, recording what insert and remove
return (purge returns nothing). -/
def runTrieGo {K V : Type} [DecidableEq K] (t : TNode K V) :
    List (TrieOp K V) → TNode K V × List (Option V)
  | [] => (t, [])
  | .ins k v :: ops =>
    let r := t.insert k v
    let rest := runTrieGo r.1 ops
    (rest.1, r.2 :: rest.2)
  | .rem k :: ops =>
    let r := t.remove k
    let rest := runTrieGo r.1 ops
    (rest.1, r.2 :: rest.2)
  | .purge :: ops => runTrieGo t.purge ops

/-- Run an operation sequence on a trie from empty. -/
def runTrie {K V : Type} [DecidableEq K] (ops : List (TrieOp K V)) :
    TNode K V × List (Option V) :=
  runTrieGo TNode.empty ops

/-- Run the same operation sequence on the reference hash map (purge is a
compaction, a no-op on the map's contents). -/
def runMapGo {K V : Type} [DecidableEq K] (m : HMap K V) :
    List (TrieOp K V) → HMap K V × List (Option V)
  | [] => (m, [])
  | .ins k v :: ops =>
    let r := hmInsert m k v
    let rest := runMapGo r.1 ops
    (rest.1, r.2 :: rest.2)
  | .rem k :: ops =>
    let r := hmRemove m k
    let rest := runMapGo r.1 ops
    (rest.1, r.2 :: rest.2)
  | .purge :: ops => runMapGo m ops

/-- Run an operation sequence on the reference map from empty. -/
def runMap {K V : Type} [DecidableEq K] (ops : List (TrieOp K V)) :
    HMap K V × List (Option V) :=
  runMapGo [] ops

/-! ## expr.rs (shared AST pieces) -/

/-- expr.rs BinOp. -/
inductive BinOp where
  | add
  | div
  | mul
  | sub
deriving DecidableEq

/-- expr.rs UnaryOp. -/
inductive UnaryOp where
  | negate
  | not
deriving DecidableEq

/-- expr.rs NumberLiteral. -/
inductive NumberLit where
  | binary (s : String)
  | decimal (s : String)
  | hex (s : String)
  | scientific (m : String) (e : String) (neg : Bool)
deriving DecidableEq

/-- expr.rs Literal. -/
inductive Literal where
  | nothing
  | bool (b : Bool)
  | quantity (n : NumberLit) (name : Option String)
deriving DecidableEq

/-! ## resolve.rs

resolve.rs works on the Expr of the repository's `syntax` crate, whose
sources are not staged; its shape is reconstructed from every arm of
resolve_helper's match and from the spec's AST description (spans, which
resolve_helper ignores, are dropped). -/

/-- Modelled from the spec: the Scope annotation of the syntax crate's
resolved variable nodes, Local(depth) or Global. -/
inductive Scope where
  | Local (depth : ℕ)
  | Global
deriving DecidableEq

/-- Modelled from the spec: the syntax crate's Expr, exactly the variants
resolve_helper matches on. -/
inductive SynExpr where
  | error
  | literal (l : Literal)
  | variable (name : String)
  | resolvedVariable (name : String) (s : Scope)
  | varDeclaration (name : String) (rhs : SynExpr)
  | varUpdate (name : String) (rhs : SynExpr)
  | call (f : SynExpr) (args : List SynExpr)
  | ifE (c t e : SynExpr)
  | block (es : List SynExpr)
  | program (es : List SynExpr)
  | conversion (src dst : SynExpr)
  | binOp (op : BinOp) (a b : SynExpr)
  | functionDecl (name : String) (params : List String) (body : SynExpr)
  | functionUpdate (name : String) (params : List String) (body : SynExpr)
  | baseUnitDecl (long : String) (short : Option String)
  | derivedUnitDecl (long : String) (short : Option String) (rhs : SynExpr)
  | pfxDecl (long : String) (short : Option String) (rhs : SynExpr)
  | unaryOp (op : UnaryOp) (e : SynExpr)

/-- HashSet::insert on a scope's name set. -/
def setInsert {α : Type} [DecidableEq α] (s : List α) (x : α) : List α :=
  if x ∈ s then s else s ++ [x]

/-- The resolver's scope stack (Vec<HashSet<String>>), with the innermost
scope at the head and the global (root) scope last. -/
abbrev RStack := List (List String)

mutual

/-- resolve_helper.  Returns the rewritten expression and the scope stack
(the source mutates both in place).  panicked models the expect("No scope
found") and unreachable! paths. -/
def resolveHelper : SynExpr → RStack → RustRes (SynExpr × RStack)
  | .error, st => .ok (.error, st)
  | .literal l, st => .ok (.literal l, st)
  | .variable name, st =>
    -- variables.iter().skip(1).rev(): every scope but the global one,
    -- innermost first; the first hit gives Local(i), otherwise Global.
    (match st.dropLast.findIdx? (fun sc => sc.contains name) with
     | some i => .ok (.resolvedVariable name (.Local i), st)
     | none => .ok (.resolvedVariable name .Global, st))
  | .resolvedVariable _ _, _ => .panicked
  | .varDeclaration name rhs, st =>
    (match st with
     | [] => .panicked
     | sc :: rest =>
       if sc.contains name then .err (.Redeclaration name)
       else
         match resolveHelper rhs (setInsert sc name :: rest) with
         | .ok (rhs', st') => .ok (.varDeclaration name rhs', st')
         | .err e => .err e
         | .panicked => .panicked)
  | .varUpdate name rhs, st =>
    -- FIXME in the source: the update node itself is not annotated.
    (match resolveHelper rhs st with
     | .ok (rhs', st') => .ok (.varUpdate name rhs', st')
     | .err e => .err e
     | .panicked => .panicked)
  | .call f args, st =>
    (match resolveHelper f st with
     | .ok (f', st') =>
       match resolveList args st' with
       | .ok (args', st'') => .ok (.call f' args', st'')
       | .err e => .err e
       | .panicked => .panicked
     | .err e => .err e
     | .panicked => .panicked)
  | .ifE c a b, st =>
    (match resolveHelper c st with
     | .ok (c', st1) =>
       match resolveHelper a st1 with
       | .ok (a', st2) =>
         match resolveHelper b st2 with
         | .ok (b', st3) => .ok (.ifE c' a' b', st3)
         | .err e => .err e
         | .panicked => .panicked
       | .err e => .err e
       | .panicked => .panicked
     | .err e => .err e
     | .panicked => .panicked)
  | .block es, st =>
    (match resolveList es ([] :: st) with
     | .ok (es', st') => .ok (.block es', st'.tail)
     | .err e => .err e
     | .panicked => .panicked)
  | .program es, st =>
    (match resolveList es st with
     | .ok (es', st') => .ok (.program es', st')
     | .err e => .err e
     | .panicked => .panicked)
  | .conversion a b, st =>
    (match resolveHelper a st with
     | .ok (a', st1) =>
       match resolveHelper b st1 with
       | .ok (b', st2) => .ok (.conversion a' b', st2)
       | .err e => .err e
       | .panicked => .panicked
     | .err e => .err e
     | .panicked => .panicked)
  | .binOp op a b, st =>
    (match resolveHelper a st with
     | .ok (a', st1) =>
       match resolveHelper b st1 with
       | .ok (b', st2) => .ok (.binOp op a' b', st2)
       | .err e => .err e
       | .panicked => .panicked
     | .err e => .err e
     | .panicked => .panicked)
  | .functionDecl name params body, st =>
    -- the function's own name goes into the enclosing scope, the
    -- parameters into a fresh scope that is popped after the body.
    (match st with
     | [] => .panicked
     | sc :: rest =>
       match resolveHelper body (params.foldl setInsert [] :: setInsert sc name :: rest) with
       | .ok (body', st') => .ok (.functionDecl name params body', st'.tail)
       | .err e => .err e
       | .panicked => .panicked)
  | .functionUpdate name params body, st =>
    -- FIXME in the source: the update node itself is not annotated, and
    -- the name is not redeclared in the enclosing scope.
    (match resolveHelper body (params.foldl setInsert [] :: st) with
     | .ok (body', st') => .ok (.functionUpdate name params body', st'.tail)
     | .err e => .err e
     | .panicked => .panicked)
  | .baseUnitDecl long short, st =>
    (match st with
     | [] => .panicked
     | sc :: rest =>
       let sc1 := setInsert sc long
       let sc2 :=
         match short with
         | some s => setInsert sc1 s
         | none => sc1
       .ok (.baseUnitDecl long short, sc2 :: rest))
  | .derivedUnitDecl long short rhs, st =>
    (match st with
     | [] => .panicked
     | sc :: rest =>
       let sc1 := setInsert sc long
       let sc2 :=
         match short with
         | some s => setInsert sc1 s
         | none => sc1
       match resolveHelper rhs (sc2 :: rest) with
       | .ok (rhs', st') => .ok (.derivedUnitDecl long short rhs', st')
       | .err e => .err e
       | .panicked => .panicked)
  | .pfxDecl long short rhs, st =>
    (match st with
     | [] => .panicked
     | sc :: rest =>
       let sc1 := setInsert sc long
       let sc2 :=
         match short with
         | some s => setInsert sc1 s
         | none => sc1
       match resolveHelper rhs (sc2 :: rest) with
       | .ok (rhs', st') => .ok (.pfxDecl long short rhs', st')
       | .err e => .err e
       | .panicked => .panicked)
  | .unaryOp op e, st =>
    (match resolveHelper e st with
     | .ok (e', st') => .ok (.unaryOp op e', st')
     | .err e => .err e
     | .panicked => .panicked)

/-- The sequential resolution of a node list (Block, Program, Call
arguments). -/
def resolveList : List SynExpr → RStack → RustRes (List SynExpr × RStack)
  | [], st => .ok ([], st)
  | e :: es, st =>
    (match resolveHelper e st with
     | .ok (e', st') =>
       match resolveList es st' with
       | .ok (es', st'') => .ok (e' :: es', st'')
       | .err x => .err x
       | .panicked => .panicked
     | .err x => .err x
     | .panicked => .panicked)

end

/-- resolve(expr): run resolve_helper with a single (global) scope. -/
def resolve (e : SynExpr) : RustRes SynExpr :=
  match resolveHelper e [[]] with
  | .ok (e', _) => .ok e'
  | .err x => .err x
  | .panicked => .panicked

/-! ## eval.rs

The evaluator of eval.rs, which works on the (Conversion-free,
annotation-free) Expr of the sibling expr.rs.  Spans are dropped: eval
destructures and ignores them.

The Environment's Arc-shared scope chain is modelled by a heap of frames
inside the global state St; an Environment value is the index of its head
frame, since all clones share the unit/name/trie stores (every clone in
eval.rs originates from the one root environment, so those Arc-shared
stores are a single global value). -/

/-- eval.rs Expr (the expr.rs iteration the evaluator matches on). -/
inductive Expr where
  | error
  | literal (l : Literal)
  | variable (name : String)
  | varDeclaration (name : String) (rhs : Expr)
  | varUpdate (name : String) (rhs : Expr)
  | call (f : Expr) (args : List Expr)
  | ifE (c t e : Expr)
  | block (es : List Expr)
  | program (es : List Expr)
  | binOp (op : BinOp) (a b : Expr)
  | functionDecl (name : String) (params : List String) (body : Expr)
  | functionUpdate (name : String) (params : List String) (body : Expr)
  | baseUnitDecl (long : String) (short : Option String)
  | derivedUnitDecl (long : String) (short : Option String) (rhs : Expr)
  | pfxDecl (long : String) (short : Option String) (rhs : Expr)
  | unaryOp (op : UnaryOp) (e : Expr)

/-- eval.rs Value.  A Function value captures its parameters, body and a
clone of the declaring Environment: the scope-chain head index. -/
inductive Value where
  | nothing
  | bool (b : Bool)
  | quantity (q : Quantity)
  | function (params : List String) (body : Expr) (envScope : ℕ)

/-- eval.rs Entry<T>: a unit or prefix-store value with its name kind. -/
structure Entry (α : Type) where
  isLongName : Bool
  value : α
deriving DecidableEq

/-- One VariableScope node: its table and its outer pointer (an index
into the heap). -/
structure ScopeFrame where
  table : List (String × Value)
  outer : Option ℕ

/-- The shared stores of the interpreter session: the scope-frame heap,
the unit store, the signature-to-names index, and the prefix trie. -/
structure St where
  heap : List ScopeFrame
  units : List (String × Entry Unit)
  unitNames : List (Powers × List (String × Option String))
  pfxs : TNode Char (Entry Number)

/-- HashMap::get on an association list. -/
def alistGet {κ α : Type} [DecidableEq κ] : List (κ × α) → κ → Option α
  | [], _ => none
  | (k', v) :: rest, k => if k' = k then some v else alistGet rest k

/-- HashMap::insert on an association list: replace or append. -/
def alistPut {κ α : Type} [DecidableEq κ] : List (κ × α) → κ → α → List (κ × α)
  | [], k, v => [(k, v)]
  | (k', v') :: rest, k, v =>
    if k' = k then (k, v) :: rest else (k', v') :: alistPut rest k v

/-- Value::is_true. -/
def Value.isTrue : Value → Except Error Bool
  | .nothing => .ok false
  | .bool b => .ok b
  | .quantity _ => .error .InvalidType
  | .function _ _ _ => .error .InvalidType

/-- Value::quantity. -/
def Value.toQuantity : Value → Except Error Quantity
  | .quantity q => .ok q
  | _ => .error .InvalidType

/-- Value::boolean. -/
def Value.toBoolean : Value → Except Error Bool
  | .bool b => .ok b
  | _ => .error .InvalidType

/-- Value::number: the number of the quantity the value holds. -/
def Value.toNumber (v : Value) : Except Error Number :=
  match v.toQuantity with
  | .ok q => .ok q.number
  | .error e => .error e

/-- Mutate the frame at index i (out-of-range indices, unreachable from
the API, leave the heap unchanged). -/
def St.modifyScope (σ : St) (i : ℕ) (f : ScopeFrame → ScopeFrame) : St :=
  { σ with heap :=
      match σ.heap[i]? with
      | none => σ.heap
      | some fr => σ.heap.set i (f fr) }

/-- Environment::push_scope seen from the heap: allocate a fresh frame
whose outer pointer is the given head; the new head is its index. -/
def St.allocScope (σ : St) (outer : Option ℕ) : St × ℕ :=
  ({ σ with heap := σ.heap ++ [⟨[], outer⟩] }, σ.heap.length)

/-- VariableScope::get_var: walk the chain from frame i.  The fuel only
bounds the walk for Lean: on reachable states outer pointers strictly
decrease, so heap length + 1 never runs out. -/
def scopeGetVar (σ : St) : ℕ → ℕ → String → Option Value
  | 0, _, _ => none
  | fuel + 1, i, name =>
    match σ.heap[i]? with
    | none => none
    | some fr =>
      match alistGet fr.table name with
      | some v => some v
      | none =>
        match fr.outer with
        | none => none
        | some j => scopeGetVar σ fuel j name

/-- VariableScope::update_var: overwrite in the first chain frame whose
table holds the name, else UpdateNonExistentVar at the chain's root.  The
outer Option layer is the fuel for the walk (see scopeGetVar). -/
def scopeUpdateVar (σ : St) : ℕ → ℕ → String → Value → Option (Except Error St)
  | 0, _, _, _ => none
  | fuel + 1, i, name, v =>
    match σ.heap[i]? with
    | none => none
    | some fr =>
      if (alistGet fr.table name).isSome then
        some (.ok (σ.modifyScope i (fun fr => { fr with table := alistPut fr.table name v })))
      else
        match fr.outer with
        | some j => scopeUpdateVar σ fuel j name v
        | none => some (.error (.UpdateNonExistentVar name))

/-- str::strip_prefix: the remainder of s after p, when p leads s. -/
def stripPre : List Char → List Char → Option (List Char)
  | [], s => some s
  | _ :: _, [] => none
  | p :: ps, c :: cs => if p = c then stripPre ps cs else none

/-- The prefixed-unit loop of Environment::get_unit: over the trie's
search results (shortest first), take the first prefix whose remainder is
a unit of the same name kind, rescaled by the prefix value. -/
def findPfxUnit (units : List (String × Entry Unit)) (name : String) :
    List (List Char × Entry Number) → Option Unit
  | [] => none
  | (pname, pentry) :: rest =>
    match stripPre pname name.toList with
    | none => findPfxUnit units name rest
    | some remainder =>
      match alistGet units (String.mk remainder) with
      | none => findPfxUnit units name rest
      | some ue =>
        if ue.isLongName = pentry.isLongName
        then some (ue.value.rescaled pentry.value)
        else findPfxUnit units name rest

/-- Environment::get_unit: the unit stored under the exact name, else the
first valid prefix+unit split, else UnknownName. -/
def getUnit (σ : St) (name : String) : Except Error Unit :=
  match alistGet σ.units name with
  | some e => .ok e.value
  | none =>
    match findPfxUnit σ.units name ((σ.pfxs).search name.toList) with
    | some u => .ok u
    | none => .error (.UnknownName name)

/-- Environment::declare_var: refuse names that resolve as units, else
insert into the head frame's table. -/
def declareVar (σ : St) (h : ℕ) (name : String) (v : Value) : Except Error St :=
  match getUnit σ name with
  | .ok _ => .error (.OccupiedName name)
  | .error _ =>
    .ok (σ.modifyScope h (fun fr => { fr with table := alistPut fr.table name v }))

/-- Environment::update_var: refuse names that resolve as units, else
walk the chain (outer Option = walk fuel, see scopeGetVar). -/
def updateVar (σ : St) (h : ℕ) (name : String) (v : Value) : Option (Except Error St) :=
  match getUnit σ name with
  | .ok _ => some (.error (.OccupiedName name))
  | .error _ => scopeUpdateVar σ (σ.heap.length + 1) h name v

/-- Environment::get_var: a unit name yields a quantity of one of that
unit, else the chain walk, else UnknownName. -/
def getVar (σ : St) (h : ℕ) (name : String) : Option (Except Error Value) :=
  match getUnit σ name with
  | .ok u => some (.ok (.quantity ⟨Number.one, u⟩))
  | .error _ =>
    match scopeGetVar σ (σ.heap.length + 1) h name with
    | some v => some (.ok v)
    | none => some (.error (.UnknownName name))

/-- HashSet::insert for the signature index's name sets. -/
def setInsertPair (s : List (String × Option String)) (x : String × Option String) :
    List (String × Option String) :=
  if x ∈ s then s else s ++ [x]

/-- Environment::declare_unit: a derivation must be a quantity (n, (s, P))
giving the unit (n*s, P); a base declaration gives (1, {base: 1}).  The
unit goes into the store under the long and (if any) short name, and the
name pair into the signature index under P. -/
def declareUnit (σ : St) (long : String) (short : Option String) (deriv : Option Value) :
    Except Error St :=
  match
    ((match deriv with
      | some v =>
        match v with
        | .quantity ⟨n, ⟨s, pw⟩⟩ => .ok (⟨n.mul s, pw⟩ : Unit)
        | _ => .error Error.InvalidType
      | none => .ok ⟨Number.one, [(⟨long, short⟩, (1 : ℚ))]⟩) :
      Except Error Unit) with
  | .error e => .error e
  | .ok du =>
    let units1 := alistPut σ.units long ⟨true, du⟩
    let units2 :=
      match short with
      | some sn => alistPut units1 sn ⟨false, du⟩
      | none => units1
    let names :=
      match alistGet σ.unitNames du.powers with
      | some s => alistPut σ.unitNames du.powers (setInsertPair s (long, short))
      | none => alistPut σ.unitNames du.powers [(long, short)]
    .ok { σ with units := units2, unitNames := names }

/-- Environment::declare_prefix: OccupiedName when the trie already has
the key, else insert. -/
def declarePfx (σ : St) (name : String) (v : Number) (isLong : Bool) : Except Error St :=
  if (σ.pfxs).containsKey name.toList then .error (.OccupiedName name)
  else .ok { σ with pfxs := ((σ.pfxs).insert name.toList ⟨isLong, v⟩).1 }

/-- eval_literal: Nothing and Bool directly; a quantity literal resolves
its optional unit name through the unit store and parses its number
(a parse failure is a panic). -/
def evalLiteral (l : Literal) (σ : St) : RustRes Value :=
  match l with
  | .nothing => .ok .nothing
  | .bool b => .ok (.bool b)
  | .quantity nl nameOpt =>
    match
      (match nameOpt with
       | some name => getUnit σ name
       | none => .ok Unit.unitless) with
    | .error e => .err e
    | .ok u =>
      match
        (match nl with
         | .binary s => Number.fromBinaryStr s.toList
         | .decimal s => Number.fromDecimalStr s.toList
         | .hex s => Number.fromHexStr s.toList
         | .scientific m e neg => Number.fromScientificStr m.toList e.toList neg) with
      | none => .panicked
      | some n => .ok (.quantity ⟨n, u⟩)

/-- The outcome of one eval call: the value (or the error) together with
the caller's environment head and the global state, both as the call left
them; or a panic. -/
inductive EvalOut where
  | ok (v : Value) (h : ℕ) (σ : St)
  | err (e : Error) (h : ℕ) (σ : St)
  | panicked

/-- The outcome of the argument-collection loop of the Call arm: every
argument's Result (errors collected, not short-circuited), the caller
head and state after all of them; or a panic. -/
inductive ArgsOut where
  | done (vals : List (Except Error Value)) (h : ℕ) (σ : St)
  | panicked

/-- The pop_scope of the Block arm: the outer pointer of the current head
(whose absence is the source's "No outer scope" panic). -/
def popHead (σ : St) (h : ℕ) : Option (Option ℕ) :=
  (σ.heap[h]?).map ScopeFrame.outer

/-- The for loop binding parameters to collected argument results: the
first Err among the values propagates (after the earlier declarations
took effect), and each binding is declared in the given environment. -/
def bindParams (σ : St) (h : ℕ) : List String → List (Except Error Value) → Except Error St
  | [], _ => .ok σ
  | _ :: _, [] => .ok σ
  | n :: ns, r :: rs =>
    match r with
    | .error e => .error e
    | .ok v =>
      match declareVar σ h n v with
      | .error e => .error e
      | .ok σ' => bindParams σ' h ns rs

/-- eval_block with the recursive eval passed in: every statement in
order, the last one's value (Nothing for an empty list). -/
def evalBlockWith (ev : Expr → ℕ → St → Option EvalOut) :
    List Expr → ℕ → St → Option EvalOut
  | [], h, σ => some (.ok .nothing h σ)
  | [e], h, σ => ev e h σ
  | e :: es, h, σ =>
    match ev e h σ with
    | none => none
    | some .panicked => some .panicked
    | some (.err x h1 σ1) => some (.err x h1 σ1)
    | some (.ok _ h1 σ1) => evalBlockWith ev es h1 σ1

/-- The `arguments.iter().map(|arg| eval(arg, env)).collect()` of the Call
arm: all arguments are evaluated (errors collected), threading the caller
environment. -/
def evalArgsWith (ev : Expr → ℕ → St → Option EvalOut) :
    List Expr → ℕ → St → Option ArgsOut
  | [], h, σ => some (.done [] h σ)
  | a :: as, h, σ =>
    match ev a h σ with
    | none => none
    | some .panicked => some .panicked
    | some (.ok v h1 σ1) =>
      match evalArgsWith ev as h1 σ1 with
      | none => none
      | some .panicked => some .panicked
      | some (.done vs h2 σ2) => some (.done (.ok v :: vs) h2 σ2)
    | some (.err e h1 σ1) =>
      match evalArgsWith ev as h1 σ1 with
      | none => none
      | some .panicked => some .panicked
      | some (.done vs h2 σ2) => some (.done (.error e :: vs) h2 σ2)

/-- One step of eval (eval.rs lines 350-461), with the recursive eval for
subexpressions passed in. -/
def evalStep (ev : Expr → ℕ → St → Option EvalOut) : Expr → ℕ → St → Option EvalOut
  | .error, h, σ => some (.err .ErrorNode h σ)
  | .literal l, h, σ =>
    (match evalLiteral l σ with
     | .ok v => some (.ok v h σ)
     | .err e => some (.err e h σ)
     | .panicked => some .panicked)
  | .variable name, h, σ =>
    (match getVar σ h name with
     | none => none
     | some (.ok v) => some (.ok v h σ)
     | some (.error e) => some (.err e h σ))
  | .varDeclaration name rhs, h, σ =>
    (match ev rhs h σ with
     | none => none
     | some .panicked => some .panicked
     | some (.err e h1 σ1) => some (.err e h1 σ1)
     | some (.ok v h1 σ1) =>
       match declareVar σ1 h1 name v with
       | .error e => some (.err e h1 σ1)
       | .ok σ2 => some (.ok v h1 σ2))
  | .varUpdate name rhs, h, σ =>
    (match ev rhs h σ with
     | none => none
     | some .panicked => some .panicked
     | some (.err e h1 σ1) => some (.err e h1 σ1)
     | some (.ok v h1 σ1) =>
       match updateVar σ1 h1 name v with
       | none => none
       | some (.error e) => some (.err e h1 σ1)
       | some (.ok σ2) => some (.ok v h1 σ2))
  | .call f args, h, σ =>
    (match ev f h σ with
     | none => none
     | some .panicked => some .panicked
     | some (.err e h1 σ1) => some (.err e h1 σ1)
     | some (.ok vf h1 σ1) =>
       match vf with
       | .function params body fscope =>
         if params.length ≠ args.length then some (.err .InvalidType h1 σ1)
         else
           -- function.env.push_scope(): a fresh frame on the closure's
           -- captured environment.
           let al := σ1.allocScope (some fscope)
           match evalArgsWith ev args h1 al.1 with
           | none => none
           | some .panicked => some .panicked
           | some (.done vals h2 σ2) =>
             -- the source's zip loop declares the parameters through
             -- `env` — the CALLER's environment head h2, not the fresh
             -- frame al.2 pushed above.
             match bindParams σ2 h2 params vals with
             | .error e => some (.err e h2 σ2)
             | .ok σ3 =>
               -- the body runs in the closure's environment; the
               -- caller's head stays h2.
               match ev body al.2 σ3 with
               | none => none
               | some .panicked => some .panicked
               | some (.err e _ σ4) => some (.err e h2 σ4)
               | some (.ok v _ σ4) => some (.ok v h2 σ4)
       | _ => some (.err .InvalidType h1 σ1))
  | .ifE c a b, h, σ =>
    (match ev c h σ with
     | none => none
     | some .panicked => some .panicked
     | some (.err e h1 σ1) => some (.err e h1 σ1)
     | some (.ok v h1 σ1) =>
       match v.isTrue with
       | .error e => some (.err e h1 σ1)
       | .ok true => ev a h1 σ1
       | .ok false => ev b h1 σ1)
  | .block es, h, σ =>
    (let al := σ.allocScope (some h)
     match evalBlockWith ev es al.2 al.1 with
     | none => none
     | some .panicked => some .panicked
     | some (.ok v h1 σ1) =>
       match popHead σ1 h1 with
       | none => none
       | some none => some .panicked
       | some (some o) => some (.ok v o σ1)
     | some (.err e h1 σ1) =>
       match popHead σ1 h1 with
       | none => none
       | some none => some .panicked
       | some (some o) => some (.err e o σ1))
  | .program es, h, σ => evalBlockWith ev es h σ
  | .binOp op a b, h, σ =>
    (match ev a h σ with
     | none => none
     | some .panicked => some .panicked
     | some (.err e h1 σ1) => some (.err e h1 σ1)
     | some (.ok va h1 σ1) =>
       match va.toQuantity with
       | .error e => some (.err e h1 σ1)
       | .ok qa =>
         match ev b h1 σ1 with
         | none => none
         | some .panicked => some .panicked
         | some (.err e h2 σ2) => some (.err e h2 σ2)
         | some (.ok vb h2 σ2) =>
           match vb.toQuantity with
           | .error e => some (.err e h2 σ2)
           | .ok qb =>
             match
               (match op with
                | .add => qa.add qb
                | .sub => qa.sub qb
                | .div => qa.div qb
                | .mul => .ok (qa.mul qb)) with
             | .ok q => some (.ok (.quantity q) h2 σ2)
             | .err e => some (.err e h2 σ2)
             | .panicked => some .panicked)
  | .functionDecl name params body, h, σ =>
    (let fv := Value.function params body h
     match declareVar σ h name fv with
     | .error e => some (.err e h σ)
     | .ok σ' => some (.ok fv h σ'))
  | .functionUpdate name params body, h, σ =>
    (let fv := Value.function params body h
     match updateVar σ h name fv with
     | none => none
     | some (.error e) => some (.err e h σ)
     | some (.ok σ') => some (.ok fv h σ'))
  | .baseUnitDecl long short, h, σ =>
    (match declareUnit σ long short none with
     | .error e => some (.err e h σ)
     | .ok σ' => some (.ok .nothing h σ'))
  | .derivedUnitDecl long short rhs, h, σ =>
    (match ev rhs h σ with
     | none => none
     | some .panicked => some .panicked
     | some (.err e h1 σ1) => some (.err e h1 σ1)
     | some (.ok v h1 σ1) =>
       match declareUnit σ1 long short (some v) with
       | .error e => some (.err e h1 σ1)
       | .ok σ2 => some (.ok .nothing h1 σ2))
  | .pfxDecl long short rhs, h, σ =>
    -- the FIXME of eval.rs line 446: the value's unit (its powers) is
    -- discarded by Value::number with no dimensionless check.
    (match ev rhs h σ with
     | none => none
     | some .panicked => some .panicked
     | some (.err e h1 σ1) => some (.err e h1 σ1)
     | some (.ok v h1 σ1) =>
       match v.toNumber with
       | .error e => some (.err e h1 σ1)
       | .ok n =>
         match declarePfx σ1 long n true with
         | .error e => some (.err e h1 σ1)
         | .ok σ2 =>
           match short with
           | none => some (.ok .nothing h1 σ2)
           | some sn =>
             match declarePfx σ2 sn n false with
             | .error e => some (.err e h1 σ2)
             | .ok σ3 => some (.ok .nothing h1 σ3))
  | .unaryOp op e, h, σ =>
    (match ev e h σ with
     | none => none
     | some .panicked => some .panicked
     | some (.err x h1 σ1) => some (.err x h1 σ1)
     | some (.ok v h1 σ1) =>
       match op with
       | .negate =>
         match v.toQuantity with
         | .error x => some (.err x h1 σ1)
         | .ok q => some (.ok (.quantity q.neg) h1 σ1)
       | .not =>
         match v.toBoolean with
         | .error x => some (.err x h1 σ1)
         | .ok b => some (.ok (.bool !b) h1 σ1))

/-- eval, with fuel only for Lean's termination (each recursive call of
the source consumes one unit; none = the fuel ran out, never the case for
a terminating source run given enough fuel). -/
def eval : ℕ → Expr → ℕ → St → Option EvalOut
  | 0, _, _, _ => none
  | fuel + 1, e, h, σ => evalStep (eval fuel) e h σ

/-- Environment::without_prelude together with the root VariableScope:
one empty global frame, empty stores.  (Environment::new additionally
runs the bundled prelude, which the claims here do not involve.) -/
def initSt : St :=
  ⟨[⟨[], none⟩], [], [], .mk [] none []⟩

/-! ## Concrete programs and values used by the claim theorems -/

/-- The source program `f(x) = x` then `f(7)` then `x`, as parsed. -/
def leakProg : Expr := .program [
  .functionDecl "f" ["x"] (.variable "x"),
  .call (.variable "f") [.literal (.quantity (.decimal "7") none)],
  .variable "x"]

/-- The source program `unit meter m` then `prefix foo = 3 meter`. -/
def pfxProg : Expr := .program [
  .baseUnitDecl "meter" (some "m"),
  .pfxDecl "foo" none (.literal (.quantity (.decimal "3") (some "meter")))]

/-- An unresolved AST holding, inside one block, a declaration of x, an
update of x, an update of a function f, and a reference to x. -/
def updProg : SynExpr := .program [
  .block [
    .varDeclaration "x" (.literal .nothing),
    .varUpdate "x" (.literal .nothing),
    .functionUpdate "f" [] (.literal .nothing),
    .variable "x"]]

/-- A quantity of 1 with powers {m^0}. -/
def cexA : Quantity := ⟨.Exact 1, ⟨.Exact 1, [(⟨"m", none⟩, 0)]⟩⟩

/-- A dimensionless quantity of 1 (empty powers). -/
def cexB : Quantity := ⟨.Exact 1, ⟨.Exact 1, []⟩⟩

/-- A dimensionless quantity of 1 with scale 1. -/
def cq : Quantity := ⟨.Exact 1, ⟨.Exact 1, []⟩⟩

/-- A dimensionless unit whose scale is the exact rational 0 (constructible
in the language, e.g. by `unit z = 0 m` analogues). -/
def cu : Unit := ⟨.Exact 0, []⟩

/-! ## Trie lemmas -/

namespace TNode

variable {K V : Type} [DecidableEq K]

theorem tlookup_mk_nil (p : List K) (q : List K) :
    (TNode.mk p (none : Option V) []).tlookup q = none := by
  cases q <;> simp [tlookup, lookupEdge]

theorem lookupEdge_updateEdge (es : List (K × TNode K V)) (k : K) (n : TNode K V) (k' : K) :
    lookupEdge (updateEdge es k n) k' = if k = k' then some n else lookupEdge es k' := by
  induction es with
  | nil => simp [updateEdge, lookupEdge]
  | cons hd tl ih =>
    obtain ⟨k0, c0⟩ := hd
    by_cases h1 : k0 = k
    · subst h1
      by_cases h2 : k0 = k' <;> simp [updateEdge, lookupEdge, h2]
    · by_cases h2 : k0 = k'
      · subst h2
        have : ¬ k = k0 := fun h => h1 h.symm
        simp [updateEdge, lookupEdge, h1, this]
      · simp [updateEdge, lookupEdge, h1, h2, ih]

theorem insertGo_fst_tlookup (rest : List K) :
    ∀ (t : TNode K V) (pre : List K) (v : V) (q : List K),
      ((t.insertGo pre rest v).1).tlookup q = if q = rest then some v else t.tlookup q := by
  induction rest with
  | nil =>
    intro t pre v q
    obtain ⟨p, v0, es⟩ := t
    cases q <;> simp [insertGo, tlookup]
  | cons hk rt ih =>
    intro t pre v q
    obtain ⟨p, v0, es⟩ := t
    cases q with
    | nil => simp [insertGo, tlookup]
    | cons qh qt =>
      by_cases hq : hk = qh
      · subst hq
        by_cases hqt : qt = rt
        · subst hqt
          simp [insertGo, tlookup, lookupEdge_updateEdge, ih]
        · have hne : ¬ (hk :: qt = hk :: rt) := by simp [hqt]
          cases hle : lookupEdge es hk with
          | some c =>
            simp [insertGo, tlookup, lookupEdge_updateEdge, ih, hle, hqt, hne]
          | none =>
            simp [insertGo, tlookup, lookupEdge_updateEdge, ih, hle, hqt, hne, tlookup_mk_nil]
      · have hne : ¬ (qh :: qt = hk :: rt) := by
          intro hcon
          injection hcon with h1 h2
          exact hq h1.symm
        simp [insertGo, tlookup, lookupEdge_updateEdge, hq, hne]

theorem insertGo_snd (rest : List K) :
    ∀ (t : TNode K V) (pre : List K) (v : V),
      (t.insertGo pre rest v).2 = t.tlookup rest := by
  induction rest with
  | nil =>
    intro t pre v
    obtain ⟨p, v0, es⟩ := t
    simp [insertGo, tlookup]
  | cons hk rt ih =>
    intro t pre v
    obtain ⟨p, v0, es⟩ := t
    cases hle : lookupEdge es hk with
    | some c => simp [insertGo, tlookup, hle, ih]
    | none => simp [insertGo, tlookup, hle, ih, tlookup_mk_nil]

theorem removeGo_fst_tlookup (rest : List K) :
    ∀ (t : TNode K V) (q : List K),
      ((t.removeGo rest).1).tlookup q = if q = rest then none else t.tlookup q := by
  induction rest with
  | nil =>
    intro t q
    obtain ⟨p, v0, es⟩ := t
    cases q <;> simp [removeGo, tlookup]
  | cons hk rt ih =>
    intro t q
    obtain ⟨p, v0, es⟩ := t
    cases hle : lookupEdge es hk with
    | none =>
      cases q with
      | nil => simp [removeGo, tlookup, hle]
      | cons qh qt =>
        by_cases hq : qh = hk
        · subst hq
          simp [removeGo, tlookup, hle]
        · have hne : ¬ (qh :: qt = hk :: rt) := by simp [hq]
          simp [removeGo, tlookup, hle, hne]
    | some c =>
      cases q with
      | nil => simp [removeGo, tlookup, hle]
      | cons qh qt =>
        by_cases hq : hk = qh
        · subst hq
          by_cases hqt : qt = rt
          · subst hqt
            simp [removeGo, tlookup, hle, lookupEdge_updateEdge, ih]
          · have hne : ¬ (hk :: qt = hk :: rt) := by simp [hqt]
            simp [removeGo, tlookup, hle, lookupEdge_updateEdge, ih, hqt, hne]
        · have hne : ¬ (qh :: qt = hk :: rt) := by
            intro hcon
            injection hcon with h1 h2
            exact hq h1.symm
          simp [removeGo, tlookup, hle, lookupEdge_updateEdge, hq, hne]

theorem removeGo_snd (rest : List K) :
    ∀ (t : TNode K V), (t.removeGo rest).2 = t.tlookup rest := by
  induction rest with
  | nil =>
    intro t
    obtain ⟨p, v0, es⟩ := t
    simp [removeGo, tlookup]
  | cons hk rt ih =>
    intro t
    obtain ⟨p, v0, es⟩ := t
    cases hle : lookupEdge es hk with
    | some c => simp [removeGo, tlookup, hle, ih]
    | none => simp [removeGo, tlookup, hle]

theorem lookupEdge_eq_none_iff (es : List (K × TNode K V)) (k : K) :
    lookupEdge es k = none ↔ k ∉ es.map Prod.fst := by
  induction es with
  | nil => simp [lookupEdge]
  | cons hd tl ih =>
    obtain ⟨k0, c0⟩ := hd
    by_cases h : k0 = k
    · subst h
      simp [lookupEdge]
    · have h' : ¬ k = k0 := fun hcon => h hcon.symm
      simp [lookupEdge, h, h', ih]

theorem lookupEdge_mem (es : List (K × TNode K V)) (k : K) (c : TNode K V)
    (h : lookupEdge es k = some c) : (k, c) ∈ es := by
  induction es with
  | nil => simp [lookupEdge] at h
  | cons hd tl ih =>
    obtain ⟨k0, c0⟩ := hd
    by_cases hk : k0 = k
    · subst hk
      simp [lookupEdge] at h
      simp [h]
    · simp [lookupEdge, hk] at h
      exact List.mem_cons_of_mem _ (ih h)

theorem lookupEdge_of_mem_nodup (es : List (K × TNode K V)) (k : K) (c : TNode K V)
    (hmem : (k, c) ∈ es) (hnd : (es.map Prod.fst).Nodup) : lookupEdge es k = some c := by
  induction es with
  | nil => simp at hmem
  | cons hd tl ih =>
    obtain ⟨k0, c0⟩ := hd
    rw [List.map_cons, List.nodup_cons] at hnd
    rcases List.mem_cons.mp hmem with heq | htl
    · injection heq with h1 h2
      subst h1
      subst h2
      simp [lookupEdge]
    · have hk : k0 ≠ k := by
        intro hcon
        subst hcon
        exact hnd.1 (List.mem_map.mpr ⟨(k0, c), htl, rfl⟩)
      simp [lookupEdge, hk, ih htl hnd.2]

theorem mem_updateEdge (es : List (K × TNode K V)) (k : K) (n : TNode K V)
    (k1 : K) (c1 : TNode K V) (h : (k1, c1) ∈ updateEdge es k n) :
    (k1 = k ∧ c1 = n) ∨ (k1, c1) ∈ es := by
  induction es with
  | nil =>
    simp [updateEdge] at h
    exact Or.inl h
  | cons hd tl ih =>
    obtain ⟨k0, c0⟩ := hd
    by_cases hk : k0 = k
    · subst hk
      simp [updateEdge] at h
      rcases h with h | h
      · exact Or.inl h
      · exact Or.inr (List.mem_cons_of_mem _ h)
    · simp [updateEdge, hk] at h
      rcases h with h | h
      · exact Or.inr (List.mem_cons.mpr (Or.inl (by simp [h])))
      · rcases ih h with h' | h'
        · exact Or.inl h'
        · exact Or.inr (List.mem_cons_of_mem _ h')

theorem updateEdge_map_fst (es : List (K × TNode K V)) (k : K) (n : TNode K V) :
    (updateEdge es k n).map Prod.fst =
      if k ∈ es.map Prod.fst then es.map Prod.fst else es.map Prod.fst ++ [k] := by
  induction es with
  | nil => simp [updateEdge]
  | cons hd tl ih =>
    obtain ⟨k0, c0⟩ := hd
    by_cases hk : k0 = k
    · subst hk
      simp [updateEdge]
    · have h' : ¬ k = k0 := fun hcon => hk hcon.symm
      by_cases hmem : k ∈ List.map Prod.fst tl <;>
        simp [updateEdge, hk, h', ih, hmem]

theorem updateEdge_nodup (es : List (K × TNode K V)) (k : K) (n : TNode K V)
    (hnd : (es.map Prod.fst).Nodup) : ((updateEdge es k n).map Prod.fst).Nodup := by
  rw [updateEdge_map_fst]
  by_cases hmem : k ∈ es.map Prod.fst
  · simpa [hmem] using hnd
  · simp [hmem]
    exact List.Nodup.append hnd (List.nodup_singleton k) (by simpa using hmem)

theorem mem_purgeList (es : List (K × TNode K V)) (k : K) (c' : TNode K V) :
    (k, c') ∈ purgeList es ↔
      ∃ c, (k, c) ∈ es ∧ (c.purgeGo).2 = false ∧ c' = (c.purgeGo).1 := by
  induction es with
  | nil => simp [purgeList]
  | cons hd tl ih =>
    obtain ⟨k0, c0⟩ := hd
    cases hr : (c0.purgeGo).2 with
    | true =>
      rw [show purgeList ((k0, c0) :: tl) = purgeList tl from by simp [purgeList, hr], ih]
      constructor
      · rintro ⟨c, hc, hf, he⟩
        exact ⟨c, List.mem_cons_of_mem _ hc, hf, he⟩
      · rintro ⟨c, hc, hf, he⟩
        rcases List.mem_cons.mp hc with heq | htl
        · injection heq with h1 h2
          subst h1
          subst h2
          rw [hr] at hf
          cases hf
        · exact ⟨c, htl, hf, he⟩
    | false =>
      rw [show purgeList ((k0, c0) :: tl) = (k0, (c0.purgeGo).1) :: purgeList tl from by
        simp [purgeList, hr]]
      constructor
      · intro h
        rcases List.mem_cons.mp h with heq | htl
        · injection heq with h1 h2
          subst h1
          exact ⟨c0, List.mem_cons_self _ _, hr, h2⟩
        · rcases ih.mp htl with ⟨c, hc, hf, he⟩
          exact ⟨c, List.mem_cons_of_mem _ hc, hf, he⟩
      · rintro ⟨c, hc, hf, he⟩
        rcases List.mem_cons.mp hc with heq | htl
        · injection heq with h1 h2
          subst h1
          subst h2
          subst he
          exact List.mem_cons_self _ _
        · exact List.mem_cons_of_mem _ (ih.mpr ⟨c, htl, hf, he⟩)

theorem purgeList_map_fst_sublist (es : List (K × TNode K V)) :
    ((purgeList es).map Prod.fst).Sublist (es.map Prod.fst) := by
  induction es with
  | nil => simp [purgeList]
  | cons hd tl ih =>
    obtain ⟨k0, c0⟩ := hd
    cases hr : (c0.purgeGo).2 with
    | true =>
      rw [show purgeList ((k0, c0) :: tl) = purgeList tl from by simp [purgeList, hr]]
      exact List.Sublist.cons _ ih
    | false =>
      rw [show purgeList ((k0, c0) :: tl) = (k0, (c0.purgeGo).1) :: purgeList tl from by
        simp [purgeList, hr]]
      rw [List.map_cons, List.map_cons]
      exact List.Sublist.cons₂ k0 ih

theorem lookupEdge_purgeList_none (es : List (K × TNode K V)) (k : K)
    (h : lookupEdge es k = none) : lookupEdge (purgeList es) k = none := by
  rw [lookupEdge_eq_none_iff] at h ⊢
  intro hmem
  exact h ((purgeList_map_fst_sublist es).mem hmem)

theorem lookupEdge_purgeList (es : List (K × TNode K V)) (k : K)
    (hnd : (es.map Prod.fst).Nodup) :
    lookupEdge (purgeList es) k =
      match lookupEdge es k with
      | none => none
      | some c => if (c.purgeGo).2 then none else some (c.purgeGo).1 := by
  induction es with
  | nil => simp [purgeList, lookupEdge]
  | cons hd tl ih =>
    obtain ⟨k0, c0⟩ := hd
    rw [List.map_cons, List.nodup_cons] at hnd
    by_cases hk : k0 = k
    · subst hk
      have hnone : lookupEdge tl k0 = none := (lookupEdge_eq_none_iff tl k0).mpr hnd.1
      cases hr : (c0.purgeGo).2 with
      | true =>
        rw [show purgeList ((k0, c0) :: tl) = purgeList tl from by simp [purgeList, hr]]
        simp [lookupEdge, lookupEdge_purgeList_none tl k0 hnone, hr]
      | false =>
        rw [show purgeList ((k0, c0) :: tl) = (k0, (c0.purgeGo).1) :: purgeList tl from by
          simp [purgeList, hr]]
        simp [lookupEdge, hr]
    · cases hr : (c0.purgeGo).2 with
      | true =>
        rw [show purgeList ((k0, c0) :: tl) = purgeList tl from by simp [purgeList, hr]]
        simp [lookupEdge, hk, ih hnd.2]
      | false =>
        rw [show purgeList ((k0, c0) :: tl) = (k0, (c0.purgeGo).1) :: purgeList tl from by
          simp [purgeList, hr]]
        simp [lookupEdge, hk, ih hnd.2]

theorem purgeList_eq_nil (es : List (K × TNode K V)) (h : purgeList es = [])
    (k : K) (c : TNode K V) (hmem : (k, c) ∈ es) : (c.purgeGo).2 = true := by
  cases hr : (c.purgeGo).2 with
  | true => rfl
  | false =>
    have : (k, (c.purgeGo).1) ∈ purgeList es :=
      (mem_purgeList es k _).mpr ⟨c, hmem, hr, rfl⟩
    rw [h] at this
    cases this

theorem twf_destruct {pre p : List K} {v : Option V} {es : List (K × TNode K V)}
    (h : TWF pre (TNode.mk p v es)) :
    p = pre ∧ (es.map Prod.fst).Nodup ∧ ∀ k c, (k, c) ∈ es → TWF (pre ++ [k]) c := by
  cases h with
  | mk _ _ _ _ hp hnd hch => exact ⟨hp, hnd, hch⟩

theorem insertGo_TWF (rest : List K) :
    ∀ (t : TNode K V) (pre : List K) (v : V),
      TWF pre t → TWF pre ((t.insertGo pre rest v).1) := by
  induction rest with
  | nil =>
    intro t pre v hwf
    obtain ⟨p, v0, es⟩ := t
    obtain ⟨hp, hnd, hch⟩ := twf_destruct hwf
    simp only [insertGo]
    exact TWF.mk _ _ _ _ hp hnd hch
  | cons hk rt ih =>
    intro t pre v hwf
    obtain ⟨p, v0, es⟩ := t
    obtain ⟨hp, hnd, hch⟩ := twf_destruct hwf
    simp only [insertGo]
    refine TWF.mk _ _ _ _ hp (updateEdge_nodup _ _ _ hnd) ?_
    intro k c hmem
    rcases mem_updateEdge _ _ _ _ _ hmem with ⟨hkeq, hceq⟩ | hold
    · subst hkeq
      subst hceq
      apply ih
      cases hle : lookupEdge es k with
      | some c0 =>
        exact hch k c0 (lookupEdge_mem _ _ _ hle)
      | none =>
        exact TWF.mk _ _ _ _ rfl (by simp) (by simp)
    · exact hch k c hold

theorem removeGo_TWF (rest : List K) :
    ∀ (t : TNode K V) (pre : List K),
      TWF pre t → TWF pre ((t.removeGo rest).1) := by
  induction rest with
  | nil =>
    intro t pre hwf
    obtain ⟨p, v0, es⟩ := t
    obtain ⟨hp, hnd, hch⟩ := twf_destruct hwf
    simp only [removeGo]
    exact TWF.mk _ _ _ _ hp hnd hch
  | cons hk rt ih =>
    intro t pre hwf
    obtain ⟨p, v0, es⟩ := t
    obtain ⟨hp, hnd, hch⟩ := twf_destruct hwf
    cases hle : lookupEdge es hk with
    | none =>
      simp only [removeGo, hle]
      exact TWF.mk _ _ _ _ hp hnd hch
    | some c0 =>
      simp only [removeGo, hle]
      refine TWF.mk _ _ _ _ hp (updateEdge_nodup _ _ _ hnd) ?_
      intro k c hmem
      rcases mem_updateEdge _ _ _ _ _ hmem with ⟨hkeq, hceq⟩ | hold
      · subst hkeq
        subst hceq
        exact ih _ _ (hch k c0 (lookupEdge_mem _ _ _ hle))
      · exact hch k c hold

theorem purgeGo_tlookup_removable {pre : List K} {t : TNode K V} (hwf : TWF pre t) :
    (∀ q, ((t.purgeGo).1).tlookup q = t.tlookup q) ∧
      ((t.purgeGo).2 = true → ∀ q, t.tlookup q = none) := by
  induction hwf with
  | mk pre p v es hp hnd hch ih =>
    constructor
    · intro q
      cases q with
      | nil => simp [purgeGo, tlookup]
      | cons qh qt =>
        simp only [purgeGo, tlookup]
        rw [lookupEdge_purgeList es qh hnd]
        cases hle : lookupEdge es qh with
        | none => simp
        | some c =>
          have hmem := lookupEdge_mem _ _ _ hle
          cases hr : (c.purgeGo).2 with
          | true =>
            simp only [hr, if_true]
            exact ((ih qh c hmem).2 hr qt).symm
          | false =>
            simp only [hr]
            simp [(ih qh c hmem).1 qt]
    · intro hrem q
      simp only [purgeGo, Bool.and_eq_true, List.isEmpty_iff, Option.isNone_iff_eq_none] at hrem
      cases q with
      | nil => simpa [tlookup] using hrem.2
      | cons qh qt =>
        simp only [tlookup]
        cases hle : lookupEdge es qh with
        | none => rfl
        | some c =>
          have hmem := lookupEdge_mem _ _ _ hle
          exact (ih qh c hmem).2 (purgeList_eq_nil es hrem.1 qh c hmem) qt

theorem purgeGo_TWF {pre : List K} {t : TNode K V} (hwf : TWF pre t) :
    TWF pre ((t.purgeGo).1) := by
  induction hwf with
  | mk pre p v es hp hnd hch ih =>
    simp only [purgeGo]
    refine TWF.mk _ _ _ _ hp ((purgeList_map_fst_sublist es).nodup hnd) ?_
    intro k c hmem
    rcases (mem_purgeList es k c).mp hmem with ⟨c0, hc0, _, he⟩
    subst he
    exact ih k c0 hc0

theorem mem_entriesList (es : List (K × TNode K V)) (kv : List K × V) :
    kv ∈ entriesList es ↔ ∃ k c, (k, c) ∈ es ∧ kv ∈ c.entries := by
  induction es with
  | nil => simp [entriesList]
  | cons hd tl ih =>
    obtain ⟨k0, c0⟩ := hd
    rw [show entriesList ((k0, c0) :: tl) = c0.entries ++ entriesList tl from rfl]
    rw [List.mem_append, ih]
    constructor
    · rintro (h | ⟨k, c, hmem, h⟩)
      · exact ⟨k0, c0, List.mem_cons_self _ _, h⟩
      · exact ⟨k, c, List.mem_cons_of_mem _ hmem, h⟩
    · rintro ⟨k, c, hmem, h⟩
      rcases List.mem_cons.mp hmem with heq | htl
      · injection heq with h1 h2
        subst h1
        subst h2
        exact Or.inl h
      · exact Or.inr ⟨k, c, htl, h⟩

theorem mem_entries_iff {pre : List K} {t : TNode K V} (hwf : TWF pre t)
    (key : List K) (v : V) :
    (key, v) ∈ t.entries ↔ ∃ q, key = pre ++ q ∧ t.tlookup q = some v := by
  induction hwf with
  | mk pre p v0 es hp hnd hch ih =>
    subst hp
    rw [show (TNode.mk p v0 es).entries =
      (match v0 with
       | some x => [(p, x)]
       | none => []) ++ entriesList es from rfl]
    rw [List.mem_append, mem_entriesList]
    constructor
    · rintro (hval | ⟨k1, c, hmem, hent⟩)
      · cases v0 with
        | some x =>
          simp only [List.mem_singleton, Prod.mk.injEq] at hval
          refine ⟨[], by simp [hval.1], ?_⟩
          simp [tlookup, hval.2]
        | none => simp at hval
      · rcases (ih k1 c hmem).mp hent with ⟨q, hkq, hlq⟩
        refine ⟨k1 :: q, by simpa [List.append_assoc] using hkq, ?_⟩
        simp [tlookup, lookupEdge_of_mem_nodup es k1 c hmem hnd, hlq]
    · rintro ⟨q, hkq, hlq⟩
      cases q with
      | nil =>
        left
        simp only [tlookup] at hlq
        subst hlq
        simp at hkq
        simp [hkq]
      | cons qh qt =>
        right
        simp only [tlookup] at hlq
        cases hle : lookupEdge es qh with
        | none =>
          rw [hle] at hlq
          cases hlq
        | some c =>
          rw [hle] at hlq
          have hmem := lookupEdge_mem _ _ _ hle
          exact ⟨qh, c, hmem,
            (ih qh c hmem).mpr ⟨qt, by simp [hkq, List.append_assoc], hlq⟩⟩

theorem searchGo_spec (arr : List K) :
    ∀ (t : TNode K V) (acc : List K),
      t.searchGo acc arr =
        arr.inits.filterMap (fun p => (t.tlookup p).map (fun v => (acc ++ p, v))) := by
  induction arr with
  | nil =>
    intro t acc
    obtain ⟨p0, v0, es⟩ := t
    cases v0 <;> simp [searchGo, tlookup]
  | cons hk tl ih =>
    intro t acc
    obtain ⟨p0, v0, es⟩ := t
    rw [List.inits_cons, List.filterMap_cons, List.filterMap_map]
    cases hle : lookupEdge es hk with
    | none =>
      have hnil : tl.inits.filterMap
          ((fun p => ((TNode.mk p0 v0 es).tlookup p).map (fun v => (acc ++ p, v))) ∘
            (fun t => hk :: t)) = [] := by
        rw [List.filterMap_eq_nil_iff]
        intro a _
        simp [tlookup, hle]
      cases v0 <;> simp [searchGo, tlookup, hle, hnil]
    | some c =>
      have hcomp : ∀ pq ∈ tl.inits,
          ((fun p => ((TNode.mk p0 v0 es).tlookup p).map (fun v => (acc ++ p, v))) ∘
            (fun t => hk :: t)) pq =
          (fun p => (c.tlookup p).map (fun v => ((acc ++ [hk]) ++ p, v))) pq := by
        intro pq _
        simp [tlookup, hle, List.append_assoc]
      rw [List.filterMap_congr hcomp, ← ih c (acc ++ [hk])]
      cases v0 <;> simp [searchGo, tlookup, hle]

end TNode

section HMapLemmas

variable {K V : Type} [DecidableEq K]

theorem hmLookup_eq_none_iff (m : HMap K V) (k : List K) :
    hmLookup m k = none ↔ k ∉ m.map Prod.fst := by
  induction m with
  | nil => simp [hmLookup]
  | cons hd tl ih =>
    obtain ⟨k0, v0⟩ := hd
    by_cases h : k0 = k
    · subst h
      simp [hmLookup]
    · have h' : ¬ k = k0 := fun hc => h hc.symm
      simp [hmLookup, h, h', ih]

theorem hmInsert_fst_lookup (m : HMap K V) (k : List K) (v : V) (q : List K) :
    hmLookup (hmInsert m k v).1 q = if q = k then some v else hmLookup m q := by
  induction m with
  | nil =>
    by_cases h : q = k
    · subst h
      simp [hmInsert, hmLookup]
    · have h' : ¬ k = q := fun hc => h hc.symm
      simp [hmInsert, hmLookup, h, h']
  | cons hd rest ih =>
    obtain ⟨k0, v0⟩ := hd
    by_cases h0 : k0 = k
    · subst h0
      by_cases h : q = k0
      · subst h
        simp [hmInsert, hmLookup]
      · have h' : ¬ k0 = q := fun hc => h hc.symm
        simp [hmInsert, hmLookup, h, h']
    · by_cases h : q = k0
      · subst h
        simp [hmInsert, hmLookup, h0]
      · have h' : ¬ k0 = q := fun hc => h hc.symm
        simp [hmInsert, hmLookup, h0, h, h', ih]

theorem hmInsert_snd (m : HMap K V) (k : List K) (v : V) :
    (hmInsert m k v).2 = hmLookup m k := by
  induction m with
  | nil => simp [hmInsert, hmLookup]
  | cons hd rest ih =>
    obtain ⟨k0, v0⟩ := hd
    by_cases h0 : k0 = k
    · subst h0
      simp [hmInsert, hmLookup]
    · simp [hmInsert, hmLookup, h0, ih]

theorem hmInsert_map_fst (m : HMap K V) (k : List K) (v : V) :
    (hmInsert m k v).1.map Prod.fst =
      if k ∈ m.map Prod.fst then m.map Prod.fst else m.map Prod.fst ++ [k] := by
  induction m with
  | nil => simp [hmInsert]
  | cons hd rest ih =>
    obtain ⟨k0, v0⟩ := hd
    by_cases h0 : k0 = k
    · subst h0
      simp [hmInsert]
    · have h' : ¬ k = k0 := fun hc => h0 hc.symm
      by_cases hmem : k ∈ List.map Prod.fst rest <;>
        simp [hmInsert, h0, h', ih, hmem]

theorem hmInsert_nodup (m : HMap K V) (k : List K) (v : V)
    (hnd : (m.map Prod.fst).Nodup) : ((hmInsert m k v).1.map Prod.fst).Nodup := by
  rw [hmInsert_map_fst]
  by_cases hmem : k ∈ m.map Prod.fst
  · simpa [hmem] using hnd
  · simp only [hmem, if_false]
    exact List.Nodup.append hnd (List.nodup_singleton k) (by simpa using hmem)

theorem hmRemove_fst_lookup (m : HMap K V) (k : List K) (q : List K)
    (hnd : (m.map Prod.fst).Nodup) :
    hmLookup (hmRemove m k).1 q = if q = k then none else hmLookup m q := by
  induction m with
  | nil => by_cases h : q = k <;> simp [hmRemove, hmLookup, h]
  | cons hd rest ih =>
    obtain ⟨k0, v0⟩ := hd
    rw [List.map_cons, List.nodup_cons] at hnd
    by_cases h0 : k0 = k
    · subst h0
      by_cases h : q = k0
      · subst h
        simp [hmRemove, (hmLookup_eq_none_iff rest q).mpr hnd.1]
      · have h' : ¬ k0 = q := fun hc => h hc.symm
        simp [hmRemove, hmLookup, h, h']
    · by_cases h : q = k0
      · subst h
        simp [hmRemove, hmLookup, h0]
      · have h' : ¬ k0 = q := fun hc => h hc.symm
        simp [hmRemove, hmLookup, h0, h, h', ih hnd.2]

theorem hmRemove_snd (m : HMap K V) (k : List K) :
    (hmRemove m k).2 = hmLookup m k := by
  induction m with
  | nil => simp [hmRemove, hmLookup]
  | cons hd rest ih =>
    obtain ⟨k0, v0⟩ := hd
    by_cases h0 : k0 = k
    · subst h0
      simp [hmRemove, hmLookup]
    · simp [hmRemove, hmLookup, h0, ih]

theorem hmRemove_map_fst_sublist (m : HMap K V) (k : List K) :
    ((hmRemove m k).1.map Prod.fst).Sublist (m.map Prod.fst) := by
  induction m with
  | nil => simp [hmRemove]
  | cons hd rest ih =>
    obtain ⟨k0, v0⟩ := hd
    by_cases h0 : k0 = k
    · subst h0
      simp [hmRemove]
    · simp only [hmRemove, h0, if_false, List.map_cons]
      exact List.Sublist.cons₂ k0 ih

theorem hmRemove_nodup (m : HMap K V) (k : List K)
    (hnd : (m.map Prod.fst).Nodup) : ((hmRemove m k).1.map Prod.fst).Nodup :=
  (hmRemove_map_fst_sublist m k).nodup hnd

end HMapLemmas

/-- The run invariant: from any well-formed trie and duplicate-free map
agreeing pointwise, the two runs agree pointwise and return the same
values, and well-formedness is preserved. -/
theorem runGo_inv {K V : Type} [DecidableEq K] (ops : List (TrieOp K V)) :
    ∀ (t : TNode K V) (m : HMap K V),
      TWF [] t → (m.map Prod.fst).Nodup →
      (∀ q, t.tlookup q = hmLookup m q) →
      TWF [] (runTrieGo t ops).1 ∧
      ((runMapGo m ops).1.map Prod.fst).Nodup ∧
      (∀ q, (runTrieGo t ops).1.tlookup q = hmLookup (runMapGo m ops).1 q) ∧
      (runTrieGo t ops).2 = (runMapGo m ops).2 := by
  induction ops with
  | nil =>
    intro t m h1 h2 h3
    exact ⟨h1, h2, h3, rfl⟩
  | cons op ops ih =>
    intro t m h1 h2 h3
    cases op with
    | ins k v =>
      have ht' : TWF [] ((t.insert k v).1) := TNode.insertGo_TWF k t [] v h1
      have hm' := hmInsert_nodup m k v h2
      have hl' : ∀ q, ((t.insert k v).1).tlookup q = hmLookup (hmInsert m k v).1 q := by
        intro q
        rw [TNode.insert, TNode.insertGo_fst_tlookup, hmInsert_fst_lookup]
        by_cases h : q = k <;> simp [h, h3 q]
      have hret : (t.insert k v).2 = (hmInsert m k v).2 := by
        rw [TNode.insert, TNode.insertGo_snd, hmInsert_snd, h3 k]
      obtain ⟨a, b, c', d⟩ := ih _ _ ht' hm' hl'
      exact ⟨a, b, c', by simp only [runTrieGo, runMapGo, d, hret]⟩
    | rem k =>
      have ht' : TWF [] ((t.remove k).1) := TNode.removeGo_TWF k t [] h1
      have hm' := hmRemove_nodup m k h2
      have hl' : ∀ q, ((t.remove k).1).tlookup q = hmLookup (hmRemove m k).1 q := by
        intro q
        rw [TNode.remove, TNode.removeGo_fst_tlookup, hmRemove_fst_lookup m k q h2]
        by_cases h : q = k <;> simp [h, h3 q]
      have hret : (t.remove k).2 = (hmRemove m k).2 := by
        rw [TNode.remove, TNode.removeGo_snd, hmRemove_snd, h3 k]
      obtain ⟨a, b, c', d⟩ := ih _ _ ht' hm' hl'
      exact ⟨a, b, c', by simp only [runTrieGo, runMapGo, d, hret]⟩
    | purge =>
      have ht' : TWF [] t.purge := TNode.purgeGo_TWF h1
      have hl' : ∀ q, (t.purge).tlookup q = hmLookup m q := by
        intro q
        rw [TNode.purge, (TNode.purgeGo_tlookup_removable h1).1 q, h3 q]
      obtain ⟨a, b, c', d⟩ := ih _ _ ht' h2 hl'
      exact ⟨a, b, c', by simp only [runTrieGo, runMapGo, d]⟩

/-- Claim C6: for every trie and every lookup key, search returns exactly
the (key, value) pairs whose key has an assigned value and is a prefix of
the lookup key (the empty key and the key itself included), ordered with
the shortest key first: search equals the prefix list (shortest first)
filtered through the trie's lookup, and membership in the result is
exactly being a valued prefix. -/
theorem trie_search_returns_stored_prefixes {K V : Type} [DecidableEq K]
    (t : TNode K V) (key : List K) :
    t.search key = key.inits.filterMap (fun p => (t.tlookup p).map (fun v => (p, v))) ∧
    ∀ p v, ((p, v) ∈ t.search key ↔ p.IsPrefix key ∧ t.tlookup p = some v) := by
  have heq : t.search key =
      key.inits.filterMap (fun p => (t.tlookup p).map (fun v => (p, v))) := by
    rw [TNode.search, TNode.searchGo_spec key t []]
    apply List.filterMap_congr
    intro p _
    simp
  refine ⟨heq, ?_⟩
  intro p v
  rw [heq, List.mem_filterMap]
  constructor
  · rintro ⟨q, hq, hmap⟩
    rw [Option.map_eq_some'] at hmap
    obtain ⟨a, ha, hpair⟩ := hmap
    injection hpair with e1 e2
    subst e1
    subst e2
    exact ⟨(List.mem_inits _ _).mp hq, ha⟩
  · rintro ⟨hp, hl⟩
    exact ⟨p, (List.mem_inits _ _).mpr hp, by simp [hl]⟩

/-- Claim C7: for every interleaved sequence of insert, remove and purge
operations from the empty trie, the entries iterator produces exactly the
contents of a reference hash map driven by the same inserts and removes,
and insert and remove return the same previous-value Options as the
reference map. -/
theorem trie_refines_reference_hashmap {K V : Type} [DecidableEq K]
    (ops : List (TrieOp K V)) :
    (runTrie ops).2 = (runMap ops).2 ∧
    ∀ k v, ((k, v) ∈ ((runTrie ops).1).entries ↔ hmLookup (runMap ops).1 k = some v) := by
  have hwf0 : TWF [] (TNode.empty : TNode K V) := TWF.mk _ _ _ _ rfl (by simp) (by simp)
  have hl0 : ∀ q : List K, (TNode.empty : TNode K V).tlookup q = hmLookup ([] : HMap K V) q := by
    intro q
    cases q <;> simp [TNode.empty, TNode.tlookup, TNode.lookupEdge, hmLookup]
  obtain ⟨hwf, hnd, hlk, hret⟩ := runGo_inv ops TNode.empty [] hwf0 (by simp) hl0
  refine ⟨hret, ?_⟩
  intro k v
  rw [show runTrie ops = runTrieGo TNode.empty ops from rfl,
    show runMap ops = runMapGo ([] : HMap K V) ops from rfl]
  rw [TNode.mem_entries_iff hwf k v]
  constructor
  · rintro ⟨q, hq, hl⟩
    simp only [List.nil_append] at hq
    subst hq
    rw [← hlk]
    exact hl
  · intro h
    exact ⟨k, by simp, by rw [hlk]; exact h⟩

/-- Claim C8: for each of the four binary operations, the result is Exact
exactly when both operands are Exact; with any Approx operand both are
coerced and the result is Approx (for division, every produced result
obeys the rule, and with an Approx operand a result is always produced
and is Approx; only exact division by exact zero produces no result,
aborting as the spec's number section states). -/
theorem number_ops_exactness (a b : Number) :
    ((a.add b).isExact = (a.isExact && b.isExact)) ∧
    ((a.sub b).isExact = (a.isExact && b.isExact)) ∧
    ((a.mul b).isExact = (a.isExact && b.isExact)) ∧
    (∀ r, a.div b = some r → r.isExact = (a.isExact && b.isExact)) ∧
    ((a.isExact && b.isExact) = false → ∃ x, a.div b = some (.Approx x)) := by
  cases a with
  | Exact x =>
    cases b with
    | Exact y =>
      refine ⟨rfl, rfl, rfl, ?_, by simp [Number.isExact]⟩
      intro r hr
      by_cases hy : (y : ℚ) = 0
      · simp [Number.div, hy] at hr
      · simp only [Number.div, hy, if_false, Option.some.injEq] at hr
        simp [← hr, Number.isExact]
    | Approx y =>
      refine ⟨rfl, rfl, rfl, ?_, fun _ => ⟨x / y, rfl⟩⟩
      intro r hr
      simp only [Number.div, Option.some.injEq] at hr
      simp [← hr, Number.isExact]
  | Approx x =>
    cases b with
    | Exact y =>
      refine ⟨rfl, rfl, rfl, ?_, fun _ => ⟨x / y, rfl⟩⟩
      intro r hr
      simp only [Number.div, Option.some.injEq] at hr
      simp [← hr, Number.isExact]
    | Approx y =>
      refine ⟨rfl, rfl, rfl, ?_, fun _ => ⟨x / y, rfl⟩⟩
      intro r hr
      simp only [Number.div, Option.some.injEq] at hr
      simp [← hr, Number.isExact]

/-- Claim C8 witness at Exact 1 and Approx 2. -/
theorem number_ops_exactness_witness :
    ((Number.Exact 1).add (.Approx 2)).isExact =
      ((Number.Exact 1).isExact && (Number.Approx 2).isExact) ∧
    ∃ x, (Number.Exact 1).div (.Approx 2) = some (.Approx x) :=
  ⟨(number_ops_exactness (.Exact 1) (.Approx 2)).1,
   (number_ops_exactness (.Exact 1) (.Approx 2)).2.2.2.2 (by decide)⟩

/-- Claim C2 counterexample: the quantities 1·(m^0) and 1·(dimensionless)
have equal powers multisets once zero exponents are dropped, yet the
addition fails with InvalidUnitOperation: the source compares the maps
literally, so a zero-exponent entry is not equivalent to its absence. -/
theorem quantity_add_zero_exponent_counterexample :
    specNonzeroMultisetEq cexA.unit.powers cexB.unit.powers ∧
    Quantity.add cexA cexB = .err .InvalidUnitOperation := by
  constructor
  · unfold specNonzeroMultisetEq
    decide
  · decide

/-- Claim C2 (amended): a + b is Err(InvalidUnitOperation) exactly when
the powers maps differ literally (zero-exponent entries significant);
with equal maps, whenever the normalising division produces a value
(always, except exact division by an exact-zero lhs scale, which aborts)
the sum is Ok with number = a.number + b.number * b.scale / a.scale and
a's unit kept; in the all-exact case with nonzero lhs scale the number is
exactly x + y * t / s. -/
theorem quantity_add_spec (a b : Quantity) :
    (Quantity.add a b = .err .InvalidUnitOperation ↔ a.unit.powers ≠ b.unit.powers) ∧
    (a.unit.powers = b.unit.powers →
      ∀ n, (b.number.mul b.unit.scale).div a.unit.scale = some n →
        Quantity.add a b = .ok ⟨a.number.add n, a.unit⟩) ∧
    (∀ x s y t : ℚ, a.number = .Exact x → a.unit.scale = .Exact s →
      b.number = .Exact y → b.unit.scale = .Exact t →
      a.unit.powers = b.unit.powers → s ≠ 0 →
      Quantity.add a b = .ok ⟨.Exact (x + y * t / s), a.unit⟩) := by
  refine ⟨?_, ?_, ?_⟩
  · constructor
    · intro h hp
      simp only [Quantity.add, hp, ne_eq, not_true_eq_false, if_false] at h
      cases hdiv : (b.number.mul b.unit.scale).div a.unit.scale <;> simp [hdiv] at h
    · intro hne
      simp [Quantity.add, hne]
  · intro hp n hdiv
    simp [Quantity.add, hp, hdiv]
  · intro x s y t hx hs hy ht hp hsz
    have hdiv : (b.number.mul b.unit.scale).div a.unit.scale = some (.Exact (y * t / s)) := by
      rw [hy, ht, hs]
      simp [Number.mul, Number.div, hsz]
    simp [Quantity.add, hp, hdiv, hx, Number.add]

/-- Claim C2 witness: (3, scale 2) + (5, scale 4), both dimensionless:
3 + 5·4/2 = 13 at the lhs scale. -/
theorem quantity_add_spec_witness :
    Quantity.add ⟨.Exact 3, ⟨.Exact 2, []⟩⟩ ⟨.Exact 5, ⟨.Exact 4, []⟩⟩ =
      .ok ⟨.Exact 13, ⟨.Exact 2, []⟩⟩ := by
  have h := (quantity_add_spec ⟨.Exact 3, ⟨.Exact 2, []⟩⟩ ⟨.Exact 5, ⟨.Exact 4, []⟩⟩).2.2
    3 2 5 4 rfl rfl rfl rfl rfl (by norm_num)
  norm_num at h
  exact h

/-- Claim C9 counterexample: converting the dimensionless quantity 1 to a
unit with equal (empty) powers but exact scale 0 does not return Some: the
exact division by zero aborts. -/
theorem try_convert_zero_scale_counterexample :
    cq.unit.powers = cu.powers ∧ Quantity.tryConvert cq cu = .panicked :=
  ⟨rfl, by decide⟩

/-- Claim C9 (amended): try_convert returns None exactly when the powers
maps differ; with equal maps it returns Some with number = q.number *
q.scale / target.scale whenever that division produces a value (always,
except exact division by an exact-zero target scale, which aborts); in
the all-exact case with nonzero scales the conversion and the round trip
back to q.unit are exact. -/
theorem try_convert_spec (q : Quantity) (u : Unit) :
    (Quantity.tryConvert q u = .ok none ↔ q.unit.powers ≠ u.powers) ∧
    (q.unit.powers = u.powers →
      ∀ n, (q.number.mul q.unit.scale).div u.scale = some n →
        Quantity.tryConvert q u = .ok (some ⟨n, u⟩)) ∧
    (∀ x s t : ℚ, q.number = .Exact x → q.unit.scale = .Exact s → u.scale = .Exact t →
      q.unit.powers = u.powers → s ≠ 0 → t ≠ 0 →
      Quantity.tryConvert q u = .ok (some ⟨.Exact (x * s / t), u⟩) ∧
      Quantity.tryConvert ⟨.Exact (x * s / t), u⟩ q.unit = .ok (some ⟨.Exact x, q.unit⟩)) := by
  refine ⟨?_, ?_, ?_⟩
  · constructor
    · intro h hp
      simp only [Quantity.tryConvert, hp, ne_eq, not_true_eq_false, if_false] at h
      cases hdiv : (q.number.mul q.unit.scale).div u.scale <;> simp [hdiv] at h
    · intro hne
      simp [Quantity.tryConvert, hne]
  · intro hp n hdiv
    simp [Quantity.tryConvert, hp, hdiv]
  · intro x s t hx hs ht hp hs0 ht0
    constructor
    · have hdiv : (q.number.mul q.unit.scale).div u.scale = some (.Exact (x * s / t)) := by
        rw [hx, hs, ht]
        simp [Number.mul, Number.div, ht0]
      simp [Quantity.tryConvert, hp, hdiv]
    · have hback : (x * s / t) * t / s = x := by
        field_simp
      have hdiv2 : ((Number.Exact (x * s / t)).mul u.scale).div q.unit.scale =
          some (.Exact x) := by
        rw [ht, hs]
        simp [Number.mul, Number.div, hs0, hback]
      simp [Quantity.tryConvert, hp, hdiv2, hx]

/-- Claim C9 witness: (6, scale 2, dimensionless) converted to scale 3
gives 6·2/3 = 4. -/
theorem try_convert_spec_witness :
    Quantity.tryConvert ⟨.Exact 6, ⟨.Exact 2, []⟩⟩ ⟨.Exact 3, []⟩ =
      .ok (some ⟨.Exact 4, ⟨.Exact 3, []⟩⟩) := by
  have h := ((try_convert_spec ⟨.Exact 6, ⟨.Exact 2, []⟩⟩ ⟨.Exact 3, []⟩).2.2
    6 2 3 rfl rfl rfl rfl (by norm_num) (by norm_num)).1
  norm_num at h
  exact h

/-- Claim C5: the dot-less digit string for 2^63 (just past i64::MAX)
makes from_decimal_str abort instead of returning its Exact value, while
i64::MAX itself parses and the same digits with a dot go through the
arbitrary-precision path. -/
theorem from_decimal_str_aborts_beyond_i64 :
    Number.fromDecimalStr "9223372036854775808".toList = none ∧
    Number.fromDecimalStr "9223372036854775807".toList =
      some (.Exact 9223372036854775807) ∧
    (Number.fromDecimalStr "9223372036854775808.0".toList).isSome = true :=
  ⟨by decide, by decide, by decide⟩

/-- Claim C3: resolving a block that declares x, updates x, updates f and
reads x annotates only the variable reference (Local 0); the var-update
and function-update nodes come back without any scope annotation. -/
theorem resolve_leaves_updates_unannotated :
    resolve updProg = .ok (.program [
      .block [
        .varDeclaration "x" (.literal .nothing),
        .varUpdate "x" (.literal .nothing),
        .functionUpdate "f" [] (.literal .nothing),
        .resolvedVariable "x" (.Local 0)]]) := rfl

/-- Claim C1: running `f(x) = x; f(7); x` succeeds and the final `x`
evaluates to 7 in the caller's (global) environment, whose own scope
frame ends up holding the binding x = 7: the Call arm declared the
parameter through the caller's environment and never removed it. -/
theorem call_binds_parameter_in_caller_env :
    ∃ σ', eval 9 leakProg 0 initSt =
        some (.ok (.quantity ⟨.Exact 7, Unit.unitless⟩) 0 σ') ∧
      alistGet (((σ'.heap[0]?).map ScopeFrame.table).getD []) "x" =
        some (.quantity ⟨.Exact 7, Unit.unitless⟩) :=
  ⟨_, rfl, rfl⟩

/-- Claim C4: running `unit meter m; prefix foo = 3 meter` returns
Nothing with no error and installs foo ↦ 3 in the prefix trie, although
the right-hand side 3 meter is not dimensionless (its powers map has the
entry meter^1). -/
theorem pfx_decl_accepts_dimensional_value :
    ∃ σ', eval 9 pfxProg 0 initSt = some (.ok .nothing 0 σ') ∧
      (σ'.pfxs).tlookup "foo".toList = some ⟨true, .Exact 3⟩ :=
  ⟨_, rfl, rfl⟩

/-- Claim C10: an if whose condition evaluates to Nothing raises no
error and runs the else branch (Nothing counts as false), while a
Quantity or Function condition makes the if fail with InvalidType. -/
theorem if_nothing_condition_runs_else (fuel : ℕ) (c a b : Expr) (h : ℕ) (σ : St) :
    (∀ h1 σ1, eval fuel c h σ = some (.ok .nothing h1 σ1) →
      eval (fuel + 1) (.ifE c a b) h σ = eval fuel b h1 σ1) ∧
    (∀ q h1 σ1, eval fuel c h σ = some (.ok (.quantity q) h1 σ1) →
      eval (fuel + 1) (.ifE c a b) h σ = some (.err .InvalidType h1 σ1)) ∧
    (∀ ps bd sc h1 σ1, eval fuel c h σ = some (.ok (.function ps bd sc) h1 σ1) →
      eval (fuel + 1) (.ifE c a b) h σ = some (.err .InvalidType h1 σ1)) := by
  refine ⟨?_, ?_, ?_⟩
  · intro h1 σ1 hc
    simp [eval, evalStep, hc, Value.isTrue]
  · intro qv h1 σ1 hc
    simp [eval, evalStep, hc, Value.isTrue]
  · intro ps bd sc h1 σ1 hc
    simp [eval, evalStep, hc, Value.isTrue]

/-- Claim C10 witness: `if nothing { true } else { false }` evaluates the
else branch. -/
theorem if_nothing_condition_runs_else_witness :
    eval 2 (.ifE (.literal .nothing) (.literal (.bool true)) (.literal (.bool false))) 0 initSt =
      eval 1 (.literal (.bool false)) 0 initSt :=
  (if_nothing_condition_runs_else 1 (.literal .nothing) (.literal (.bool true))
    (.literal (.bool false)) 0 initSt).1 0 initSt rfl

end Hypatia
